import Mathlib

/-!
Verification development for the `auto-notes` per-page PDF annotation
pipeline (source: `src/auto-notes.py`).

Modelling conventions:
* Python `str` values are modelled as `List Char` (a Python string is a
  sequence of Unicode code points).  String literals enter the model via
  `String.data`.
* Python floats appearing in page geometry are modelled as exact rationals
  `ℚ`; floating-point rounding is out of scope for the geometric claims.
* Fallible code is modelled with `Except`/`Option`.
* File-system state touched by the per-page cache step is modelled as the
  explicit content of the per-page record (`Option (List Char)`).
-/

/-- Membership test for the lowercase-ASCII-alphanumeric class `[a-z0-9]`
used by the slug regex (code points 97..122 and 48..57). -/
def isSlugChar (c : Char) : Bool :=
  (97 ≤ c.toNat && c.toNat ≤ 122) || (48 ≤ c.toNat && c.toNat ≤ 57)

/-- Python `str.strip()` with no argument: drop leading and trailing
whitespace. -/
def pyStrip (l : List Char) : List Char :=
  ((l.dropWhile Char.isWhitespace).reverse.dropWhile Char.isWhitespace).reverse

/-- Python `str.strip('-')`: drop leading and trailing hyphens. -/
def stripDashes (l : List Char) : List Char :=
  ((l.dropWhile (fun c => c = '-')).reverse.dropWhile (fun c => c = '-')).reverse

/-- Split a character list at every occurrence of the separator `sep`,
keeping empty segments (the behaviour of Python `str.split(sep)` for a
one-character separator, and the line-start structure used by `(?m)^`
when `sep` is a newline). -/
def splitChar (sep : Char) : List Char → List (List Char)
  | [] => [[]]
  | c :: cs =>
    if c = sep then
      [] :: splitChar sep cs
    else
      match splitChar sep cs with
      | [] => [[c]]
      | l :: ls => (c :: l) :: ls

/-- Join segments with the separator `sep`: left inverse of `splitChar`. -/
def joinChar (sep : Char) : List (List Char) → List Char
  | [] => []
  | [l] => l
  | l :: ls => l ++ sep :: joinChar sep ls

/-! ## Page geometry (`annotate_pdf`, lines 142–155)

The compositor computes, for a source page of width `w` and height `h`
and a margin ratio `m`:
`note_w = w * m`, `new_w = w + note_w`, `new_h = h`, creates the output
page `[0, new_w] × [0, new_h]`, and places the original content and the
notes column depending on `side` (the `else` branch of the source handles
every side other than `"right"`, in particular `"left"`). -/

/-- Axis-aligned rectangle with rational coordinates, modelling
`fitz.Rect(x0, y0, x1, y1)`. -/
structure Rect where
  x0 : ℚ
  y0 : ℚ
  x1 : ℚ
  y1 : ℚ
deriving DecidableEq, Repr

/-- Width of a rectangle (`fitz.Rect.width`). -/
def Rect.width (r : Rect) : ℚ := r.x1 - r.x0

/-- Height of a rectangle (`fitz.Rect.height`). -/
def Rect.height (r : Rect) : ℚ := r.y1 - r.y0

/-- Closed-point membership in a rectangle. -/
def Rect.memPt (r : Rect) (p : ℚ × ℚ) : Prop :=
  r.x0 ≤ p.1 ∧ p.1 ≤ r.x1 ∧ r.y0 ≤ p.2 ∧ p.2 ≤ r.y1

/-- Interior (strict) membership in a rectangle. -/
def Rect.intPt (r : Rect) (p : ℚ × ℚ) : Prop :=
  r.x0 < p.1 ∧ p.1 < r.x1 ∧ r.y0 < p.2 ∧ p.2 < r.y1

/-- Two rectangles have non-overlapping interiors. -/
def disjointInteriors (a b : Rect) : Prop :=
  ∀ p : ℚ × ℚ, ¬ (a.intPt p ∧ b.intPt p)

/-- The union of the point sets of `a` and `b` is exactly the point set of
`page`. -/
def tilesExactly (a b page : Rect) : Prop :=
  ∀ p : ℚ × ℚ, page.memPt p ↔ (a.memPt p ∨ b.memPt p)

/-- Geometry computed by the per-page loop of `annotate_pdf`
(lines 144–155): returns the target rectangle where the original page is
placed, the notes rectangle, and the full output-page rectangle. -/
def annotate_pdf_geometry (w h m : ℚ) (side : List Char) :
    Rect × Rect × Rect :=
  let note_w := w * m
  let new_w := w + note_w
  let new_h := h
  if side = "right".data then
    (⟨0, 0, w, h⟩, ⟨w, 0, new_w, new_h⟩, ⟨0, 0, new_w, new_h⟩)
  else
    (⟨note_w, 0, new_w, h⟩, ⟨0, 0, note_w, new_h⟩, ⟨0, 0, new_w, new_h⟩)

/-! ## Page selection (`parse_pages`, lines 77–90)

`parse_pages(spec, total)` splits the spec on commas, strips each chunk,
treats a chunk containing `-` as an inclusive range `int(a)..int(b)`
(splitting at the first `-`) and any other chunk as a single `int`,
filters the collected numbers to `[1, total]`, and returns
`sorted(set(sel)) or None`.  A failing `int(...)` raises `ValueError`,
modelled as `Except.error`. -/

/-- Numeric value of a decimal digit character. -/
def charVal (c : Char) : ℕ := c.toNat - 48

/-- Digit accumulator for Python `int` literals: accepts decimal digits
with single underscores allowed only between digits. -/
def pyDigitsAux (acc : ℕ) : List Char → Option ℕ
  | [] => some acc
  | '_' :: c :: cs =>
    if c.isDigit then pyDigitsAux (10 * acc + charVal c) cs else none
  | c :: cs =>
    if c.isDigit then pyDigitsAux (10 * acc + charVal c) cs else none

/-- Parse a nonempty digit string (Python `digitpart`): leading digit
required, then digits with optional single separating underscores. -/
def pyDigits : List Char → Option ℕ
  | [] => none
  | c :: cs => if c.isDigit then pyDigitsAux (charVal c) cs else none

/-- Python `int(s)` on a string: strip whitespace, optional sign, decimal
digits (with underscore separators); `none` models `ValueError`. -/
def pyInt (s : List Char) : Option ℤ :=
  match pyStrip s with
  | '+' :: rest => (pyDigits rest).map (fun n => (n : ℤ))
  | '-' :: rest => (pyDigits rest).map (fun n => -(n : ℤ))
  | rest => (pyDigits rest).map (fun n => (n : ℤ))

/-- Python `list(range(a, b + 1))`: the integers `a, a+1, ..., b`
(empty when `b < a`). -/
def pyRange (a b : ℤ) : List ℤ :=
  (List.range (b + 1 - a).toNat).map (fun i => a + (i : ℤ))

/-- Insert `x` into an ascending duplicate-free list, keeping it ascending
and duplicate-free. -/
def insUnique (x : ℤ) : List ℤ → List ℤ
  | [] => [x]
  | y :: ys =>
    if x < y then x :: y :: ys
    else if x = y then y :: ys
    else y :: insUnique x ys

/-- Python `sorted(set(l))`: the ascending list of the distinct elements
of `l`. -/
def sortedUnique (l : List ℤ) : List ℤ := l.foldr insUnique []

/-- One chunk of the page-selection spec (already split on commas):
`chunk.strip()`, then the range branch when it contains `-`
(`chunk.split("-", 1)`), else the single-number branch. -/
def parseChunk (chunk : List Char) : Except String (List ℤ) :=
  let c := pyStrip chunk
  if '-' ∈ c then
    match pyInt (c.takeWhile (fun x => x ≠ '-')),
        pyInt ((c.dropWhile (fun x => x ≠ '-')).tail) with
    | some a, some b => .ok (pyRange a b)
    | _, _ => .error "invalid literal for int"
  else
    match pyInt c with
    | some a => .ok [a]
    | none => .error "invalid literal for int"

/-- Sequential processing of the comma-separated chunks, accumulating the
selected numbers in chunk order; the first failing chunk raises. -/
def parseChunks : List (List Char) → Except String (List ℤ)
  | [] => .ok []
  | c :: cs =>
    match parseChunk c with
    | .error e => .error e
    | .ok xs =>
      match parseChunks cs with
      | .error e => .error e
      | .ok rest => .ok (xs ++ rest)

/-- Model of `parse_pages(spec, total)` (lines 77–90).  `none` spec and
the empty-string spec are both falsy in Python and return `None`. -/
def parse_pages (spec : Option (List Char)) (total : ℤ) :
    Except String (Option (List ℤ)) :=
  match spec with
  | none => .ok none
  | some s =>
    if s = [] then .ok none
    else
      match parseChunks (splitChar ',' s) with
      | .error e => .error e
      | .ok sel =>
        let filtered := sel.filter (fun p => decide (1 ≤ p ∧ p ≤ total))
        let sorted := sortedUnique filtered
        .ok (if sorted = [] then none else some sorted)

/-- Validity of one (raw) chunk: mirrors the success condition of
`parseChunk`. -/
def validChunk (chunk : List Char) : Bool :=
  let c := pyStrip chunk
  if '-' ∈ c then
    (pyInt (c.takeWhile (fun x => x ≠ '-'))).isSome &&
      (pyInt ((c.dropWhile (fun x => x ≠ '-')).tail)).isSome
  else
    (pyInt c).isSome

/-! ## Header formatting (`format_annotation_headers`, lines 92–109)

For each header `h` in a fixed order, the source runs
`re.sub(rf"(?m)^{re.escape(h)}", f"**{label}:**\n", body)` where
`label = h.rstrip(":")`.  The pattern is a literal anchored at a line
start (position 0 or just after a newline); the headers contain no
newline, so within one pass the matches are exactly the lines having `h`
as a prefix, and the replacement rewrites that prefix to
`**label:**` followed by a newline.  We therefore model a document as its
list of lines (split at every newline, exactly the `(?m)^` anchor
positions); one pass maps a line with prefix `h` to the two lines
`**label:**` and the remainder of the line, and leaves other lines
unchanged.  Passes compose on the line lists; the string is reassembled
at the end. -/

/-- Python `h.rstrip(":")`: drop trailing colon characters. -/
def rstripColon (h : List Char) : List Char :=
  (h.reverse.dropWhile (fun c => c = ':')).reverse

/-- The recognized header list of `format_annotation_headers`, in source
order. -/
def headersL : List (List Char) :=
  ["Title:".data, "Explanation:".data, "Equation breakdown:".data,
    "Intuition:".data, "Mental checkpoint:".data, "Connections:".data]

/-- The bold replacement line `**label:**` for a header. -/
def decorLine (h : List Char) : List Char :=
  "**".data ++ rstripColon h ++ ":**".data

/-- One line under one substitution pass: a line starting with the header
becomes the bold line plus the remainder of the line (the replacement
ends with a newline); other lines are unchanged. -/
def stepHeader (h : List Char) (ln : List Char) : List (List Char) :=
  if h <+: ln then [decorLine h, ln.drop h.length] else [ln]

/-- One full substitution pass over the line list. -/
def subHeaderLines (h : List Char) (lines : List (List Char)) :
    List (List Char) :=
  lines.flatMap (stepHeader h)

/-- All six passes in source order, on the line list. -/
def formatLines (lines : List (List Char)) : List (List Char) :=
  headersL.foldl (fun ls h => subHeaderLines h ls) lines

/-- Model of `format_annotation_headers(body)`: split into lines, apply
the six passes, reassemble. -/
def format_annotation_headers (body : List Char) : List Char :=
  joinChar '\n' (formatLines (splitChar '\n' body))

/-- Every recognized-header occurrence inside this line is at the line's
start: no header is a prefix of a proper suffix of the line. -/
def headerOnlyAtLineStart (ln : List Char) : Prop :=
  ∀ i < ln.length, 0 < i → ∀ h ∈ headersL, ¬ h <+: ln.drop i

instance (ln : List Char) : Decidable (headerOnlyAtLineStart ln) :=
  inferInstanceAs
    (Decidable (∀ i < ln.length, 0 < i → ∀ h ∈ headersL, ¬ h <+: ln.drop i))

/-! ## Slug derivation (`_slug`, lines 131–132)

`re.sub(r'[^a-z0-9]+', '-', s.lower()).strip('-')`: lower-case, replace
every maximal run of characters outside `[a-z0-9]` by one hyphen, strip
leading and trailing hyphens.  `toLowerChβ` below is Python's `str.lower`
restricted to its basic-latin action, which is all the idempotence and
example claims exercise (the slug alphabet is ASCII). -/

/-- Replace each maximal run of non-`[a-z0-9]` characters with a single
hyphen; the flag records whether the previous character was inside such a
run (mirroring the regex `[^a-z0-9]+`). -/
def collapseRuns : Bool → List Char → List Char
  | _, [] => []
  | inRun, c :: cs =>
    if isSlugChar c then c :: collapseRuns false cs
    else if inRun then collapseRuns true cs
    else '-' :: collapseRuns true cs

/-- Model of `_slug(s)` from `annotate_pdf`. -/
def _slug (s : List Char) : List Char :=
  stripDashes (collapseRuns false (s.map Char.toLower))

/-! ## Per-page cache step (`annotate_pdf`, lines 157–184)

The per-page step, for cache key `(course_slug, document_stem, page)`,
with the prior record content `cached` (the content of `note.md`, or
`none` if absent): on a hit (`not force and md_path.exists()`) it reads
the stored text back; otherwise it invokes the generator, post-processes
the output (non-breaking spaces to spaces, then header formatting) and
writes the record.  In both cases it then invokes the renderer on the
resulting text and stores the fragment.  `events` records the observable
calls in execution order. -/

/-- Observable effects of the per-page step, in order. -/
inductive CacheEv where
  | genCall
  | cacheWrite
  | renderCall
deriving DecidableEq, Repr

/-- Replace non-breaking spaces by ordinary spaces
(`note_md.replace(" ", " ")`). -/
def replaceNbsp (s : List Char) : List Char :=
  s.map (fun c => if c = '\u00A0' then ' ' else c)

/-- Post-processing applied to freshly generated text before it is
persisted (lines 176–179). -/
def postProcess (genOut : List Char) : List Char :=
  format_annotation_headers (replaceNbsp genOut)

/-- Result of the per-page cache/generate/render step. -/
structure PageStepOut (β : Type) where
  noteMd : List Char
  mdStore : Option (List Char)
  fragment : β
  events : List CacheEv
deriving Repr

/-- Model of the per-page step (lines 163–184): `cached` is the prior
record content, `force` the force flag, `genOut` the raw generator output
for this page, `render` the external renderer. -/
def pageStep {β : Type} (cached : Option (List Char)) (force : Bool)
    (genOut : List Char) (render : List Char → β) : PageStepOut β :=
  match force, cached with
  | false, some t =>
    { noteMd := t
      mdStore := some t
      fragment := render t
      events := [CacheEv.renderCall] }
  | _, _ =>
    { noteMd := postProcess genOut
      mdStore := some (postProcess genOut)
      fragment := render (postProcess genOut)
      events := [CacheEv.genCall, CacheEv.cacheWrite, CacheEv.renderCall] }

/-! ## Retry policy (`call_gpt5`, lines 34–50) and the page loop

The decorator is
`@retry(wait=wait_exponential_jitter(initial=1, max=20),
stop=stop_after_attempt(5), retry=retry_if_exception_type(Exception))`:
any exception is retried, at most 5 attempts are made, and the failure of
the final attempt propagates to the caller.  The attempt outcomes are
modelled by an oracle `f : ℕ → Except ε α` giving the result of the
`i`-th attempt (0-based); the sampled jitter of the wait policy is an
explicit parameter `j ∈ [0, 1]`. -/

/-- Attempt `i` with `n` attempts remaining: on an exception, retry while
attempts remain; the last attempt's outcome propagates. -/
def retryRun {ε α : Type} (f : ℕ → Except ε α) : ℕ → ℕ → Except ε α
  | i, 0 => f i
  | i, 1 => f i
  | i, n + 2 =>
    match f i with
    | .ok v => .ok v
    | .error _ => retryRun f (i + 1) (n + 1)

/-- Model of the decorated `call_gpt5`: up to 5 attempts of the
underlying call. -/
def call_gpt5 {ε α : Type} (f : ℕ → Except ε α) : Except ε α :=
  retryRun f 0 5

/-- Modelled from the spec of tenacity's
`wait_exponential_jitter(initial=1, max=20)` (the library the source
decorates `call_gpt5` with; its code is not part of this repository):
the wait before retry `n` (0-based) is `min(initial * 2^n + jitter, max)`
with `jitter` sampled uniformly from `[0, 1]`. -/
def waitExpJitter (n : ℕ) (j : ℚ) : ℚ :=
  max 0 (min (1 * 2 ^ n + j) 20)

/-- The sequential page loop of `annotate_pdf`: pages are processed in
order and the first failing page aborts the whole run (the exception
propagates out of the loop before any later page is touched). -/
def processPages {ε α : Type} (step : ℕ → Except ε α) :
    List ℕ → Except ε (List α)
  | [] => .ok []
  | p :: ps =>
    match step p with
    | .error e => .error e
    | .ok a =>
      match processPages step ps with
      | .error e => .error e
      | .ok rest => .ok (a :: rest)

/-! ## Renderer sizing parameters (`render_md_to_pdf`, lines 61–70)

`env["NOTE_WIDTH"] = str(int(notes_rect.width))` and
`env["NOTE_HEIGHT"] = str(int(notes_rect.height))`: Python `int(...)` on
a float truncates toward zero. -/

/-- Python `int(q)` on a real value: truncation toward zero. -/
def pyIntTrunc (q : ℚ) : ℤ := if 0 ≤ q then q.floor else q.ceil

/-- The two sizing parameters communicated to the Node renderer through
its environment (`NOTE_WIDTH`, `NOTE_HEIGHT`). -/
def render_md_to_pdf_env (notes_rect : Rect) : ℤ × ℤ :=
  (pyIntTrunc notes_rect.width, pyIntTrunc notes_rect.height)

/-! ## Theorems for claim C1 -/

/-- Evaluation of the compositor geometry on side `"right"`. -/
theorem annotate_pdf_geometry_right (w h m : ℚ) :
    annotate_pdf_geometry w h m "right".data =
      (⟨0, 0, w, h⟩, ⟨w, 0, w + w * m, h⟩, ⟨0, 0, w + w * m, h⟩) := by
  simp [annotate_pdf_geometry]

/-- Evaluation of the compositor geometry on any side other than
`"right"` (the `else` branch of the source, used for `"left"`). -/
theorem annotate_pdf_geometry_not_right (w h m : ℚ) (side : List Char)
    (hside : side ≠ "right".data) :
    annotate_pdf_geometry w h m side =
      (⟨w * m, 0, w + w * m, h⟩, ⟨0, 0, w * m, h⟩, ⟨0, 0, w + w * m, h⟩) := by
  simp [annotate_pdf_geometry, hside]

/-- C1: for every source page of width `w > 0` and height `h > 0`, every
margin ratio `m ≥ 0` and both side settings, the compositor produces an
output page of width `w + w*m` and height `h`; the original-content
rectangle and the notes rectangle have disjoint interiors, both span the
full page height `[0, h]`, and their union is exactly the output page; for
side `"right"` the original occupies `x ∈ [0, w]` and the notes
`x ∈ [w, w + w*m]`, for side `"left"` the original occupies
`x ∈ [w*m, w + w*m]` and the notes `x ∈ [0, w*m]`. -/
theorem annotate_pdf_geometry_tiles (w h m : ℚ) (side : List Char)
    (hw : 0 < w) (_hh : 0 < h) (hm : 0 ≤ m) :
    ((annotate_pdf_geometry w h m side).2.2.width = w + w * m) ∧
    ((annotate_pdf_geometry w h m side).2.2.height = h) ∧
    disjointInteriors (annotate_pdf_geometry w h m side).1
      (annotate_pdf_geometry w h m side).2.1 ∧
    ((annotate_pdf_geometry w h m side).1.y0 = 0 ∧
      (annotate_pdf_geometry w h m side).1.y1 = h ∧
      (annotate_pdf_geometry w h m side).2.1.y0 = 0 ∧
      (annotate_pdf_geometry w h m side).2.1.y1 = h) ∧
    tilesExactly (annotate_pdf_geometry w h m side).1
      (annotate_pdf_geometry w h m side).2.1
      (annotate_pdf_geometry w h m side).2.2 ∧
    (side = "right".data →
      (annotate_pdf_geometry w h m side).1.x0 = 0 ∧
      (annotate_pdf_geometry w h m side).1.x1 = w ∧
      (annotate_pdf_geometry w h m side).2.1.x0 = w ∧
      (annotate_pdf_geometry w h m side).2.1.x1 = w + w * m) ∧
    (side = "left".data →
      (annotate_pdf_geometry w h m side).1.x0 = w * m ∧
      (annotate_pdf_geometry w h m side).1.x1 = w + w * m ∧
      (annotate_pdf_geometry w h m side).2.1.x0 = 0 ∧
      (annotate_pdf_geometry w h m side).2.1.x1 = w * m) := by
  have hwm : 0 ≤ w * m := mul_nonneg hw.le hm
  by_cases hside : side = "right".data
  · subst hside
    rw [annotate_pdf_geometry_right]
    dsimp only [Rect.width, Rect.height, Rect.memPt, Rect.intPt,
      disjointInteriors, tilesExactly]
    refine ⟨by ring, by ring, ?_, ⟨rfl, rfl, rfl, rfl⟩, ?_, ?_, ?_⟩
    · rintro p ⟨⟨_, h2, _, _⟩, ⟨h5, _, _, _⟩⟩
      exact absurd (lt_trans h5 h2) (lt_irrefl _)
    · intro p
      constructor
      · rintro ⟨hx0, hx1, hy0, hy1⟩
        rcases le_total p.1 w with hle | hge
        · exact Or.inl ⟨hx0, hle, hy0, hy1⟩
        · exact Or.inr ⟨hge, hx1, hy0, hy1⟩
      · rintro (⟨hx0, hx1, hy0, hy1⟩ | ⟨hx0, hx1, hy0, hy1⟩)
        · exact ⟨hx0, by linarith, hy0, hy1⟩
        · exact ⟨by linarith, hx1, hy0, hy1⟩
    · intro _
      exact ⟨rfl, rfl, rfl, rfl⟩
    · intro hleft
      exact absurd hleft (by decide)
  · rw [annotate_pdf_geometry_not_right w h m side hside]
    dsimp only [Rect.width, Rect.height, Rect.memPt, Rect.intPt,
      disjointInteriors, tilesExactly]
    refine ⟨by ring, by ring, ?_, ⟨rfl, rfl, rfl, rfl⟩, ?_, ?_, ?_⟩
    · rintro p ⟨⟨h1, _, _, _⟩, ⟨_, h6, _, _⟩⟩
      exact absurd (lt_trans h1 h6) (lt_irrefl _)
    · intro p
      constructor
      · rintro ⟨hx0, hx1, hy0, hy1⟩
        rcases le_total p.1 (w * m) with hle | hge
        · exact Or.inr ⟨hx0, hle, hy0, hy1⟩
        · exact Or.inl ⟨hge, hx1, hy0, hy1⟩
      · rintro (⟨hx0, hx1, hy0, hy1⟩ | ⟨hx0, hx1, hy0, hy1⟩)
        · exact ⟨by linarith, hx1, hy0, hy1⟩
        · exact ⟨hx0, by linarith, hy0, hy1⟩
    · intro hright
      exact absurd hright hside
    · intro _
      exact ⟨rfl, rfl, rfl, rfl⟩

/-- Witness for C1: the geometry theorem instantiated at the concrete page
`w = 2, h = 1, m = 1` with side `"right"`, with all hypotheses
discharged. -/
theorem annotate_pdf_geometry_tiles_witness :
    ((annotate_pdf_geometry 2 1 1 "right".data).2.2.width = 2 + 2 * 1) ∧
    disjointInteriors (annotate_pdf_geometry 2 1 1 "right".data).1
      (annotate_pdf_geometry 2 1 1 "right".data).2.1 ∧
    tilesExactly (annotate_pdf_geometry 2 1 1 "right".data).1
      (annotate_pdf_geometry 2 1 1 "right".data).2.1
      (annotate_pdf_geometry 2 1 1 "right".data).2.2 := by
  have h := annotate_pdf_geometry_tiles 2 1 1 "right".data
    (by norm_num) (by norm_num) (by norm_num)
  exact ⟨h.1, h.2.2.1, h.2.2.2.2.1⟩

/-! ## Helper lemmas about `sortedUnique` -/

/-- Membership in `insUnique`. -/
theorem insUnique_mem (x y : ℤ) (l : List ℤ) :
    y ∈ insUnique x l ↔ y = x ∨ y ∈ l := by
  induction l with
  | nil => simp [insUnique]
  | cons z zs ih =>
    rw [insUnique]
    by_cases h1 : x < z
    · rw [if_pos h1]
      simp only [List.mem_cons]
    · rw [if_neg h1]
      by_cases h2 : x = z
      · rw [if_pos h2]
        subst h2
        simp only [List.mem_cons]
        tauto
      · rw [if_neg h2]
        simp only [List.mem_cons, ih]
        tauto

/-- `insUnique` preserves strict sortedness. -/
theorem insUnique_sorted (x : ℤ) (l : List ℤ)
    (h : l.Sorted (· < ·)) : (insUnique x l).Sorted (· < ·) := by
  induction l with
  | nil => simp [insUnique]
  | cons z zs ih =>
    rw [List.sorted_cons] at h
    by_cases h1 : x < z
    · rw [insUnique, if_pos h1, List.sorted_cons]
      refine ⟨?_, by rw [List.sorted_cons]; exact h⟩
      intro b hb
      rcases List.mem_cons.mp hb with hb | hb
      · exact hb ▸ h1
      · exact lt_trans h1 (h.1 b hb)
    · by_cases h2 : x = z
      · rw [insUnique, if_neg h1, if_pos h2, List.sorted_cons]
        exact h
      · have hzx : z < x := lt_of_le_of_ne (not_lt.mp h1) (Ne.symm h2)
        rw [insUnique, if_neg h1, if_neg h2, List.sorted_cons]
        refine ⟨?_, ih h.2⟩
        intro b hb
        rcases (insUnique_mem x b zs).mp hb with hb | hb
        · exact hb ▸ hzx
        · exact h.1 b hb

/-- `sortedUnique` returns a strictly ascending list. -/
theorem sortedUnique_sorted (l : List ℤ) :
    (sortedUnique l).Sorted (· < ·) := by
  induction l with
  | nil => simp [sortedUnique]
  | cons x xs ih => exact insUnique_sorted x _ ih

/-- `sortedUnique` has the same members as its input. -/
theorem sortedUnique_mem (l : List ℤ) (y : ℤ) :
    y ∈ sortedUnique l ↔ y ∈ l := by
  induction l with
  | nil => simp [sortedUnique]
  | cons x xs ih =>
    rw [sortedUnique, List.foldr_cons, insUnique_mem]
    rw [sortedUnique] at ih
    rw [ih, List.mem_cons]

/-- A valid chunk parses successfully. -/
theorem parseChunk_ok_of_valid (c : List Char) (h : validChunk c = true) :
    ∃ xs, parseChunk c = .ok xs := by
  rw [validChunk] at h
  rw [parseChunk]
  by_cases hd : '-' ∈ pyStrip c
  · rw [if_pos hd] at h ⊢
    rw [Bool.and_eq_true, Option.isSome_iff_exists, Option.isSome_iff_exists] at h
    obtain ⟨⟨a, ha⟩, ⟨b, hb⟩⟩ := h
    rw [ha, hb]
    exact ⟨_, rfl⟩
  · rw [if_neg hd] at h ⊢
    rw [Option.isSome_iff_exists] at h
    obtain ⟨a, ha⟩ := h
    rw [ha]
    exact ⟨_, rfl⟩

/-- An invalid chunk raises. -/
theorem parseChunk_error_of_invalid (c : List Char)
    (h : validChunk c = false) : ∃ e, parseChunk c = .error e := by
  rw [validChunk] at h
  rw [parseChunk]
  by_cases hd : '-' ∈ pyStrip c
  · rw [if_pos hd] at h ⊢
    rcases ha : pyInt ((pyStrip c).takeWhile (fun x => x ≠ '-')) with _ | a
    · exact ⟨_, rfl⟩
    · rcases hb : pyInt (((pyStrip c).dropWhile (fun x => x ≠ '-')).tail)
        with _ | b
      · exact ⟨_, rfl⟩
      · rw [ha, hb] at h
        simp at h
  · rw [if_neg hd] at h ⊢
    rcases ha : pyInt (pyStrip c) with _ | a
    · exact ⟨_, rfl⟩
    · rw [ha] at h
      simp at h

/-- If every chunk is valid, the chunk list parses successfully. -/
theorem parseChunks_ok_of_valid (cs : List (List Char))
    (h : ∀ c ∈ cs, validChunk c = true) :
    ∃ sel, parseChunks cs = .ok sel := by
  induction cs with
  | nil => exact ⟨[], rfl⟩
  | cons c cs ih =>
    obtain ⟨xs, hxs⟩ := parseChunk_ok_of_valid c (h c (List.mem_cons_self c cs))
    obtain ⟨sel, hsel⟩ := ih (fun d hd => h d (List.mem_cons_of_mem c hd))
    refine ⟨xs ++ sel, ?_⟩
    rw [parseChunks, hxs, hsel]

/-- If some chunk is invalid, the chunk list raises. -/
theorem parseChunks_error_of_invalid (cs : List (List Char))
    (h : ∃ c ∈ cs, validChunk c = false) :
    ∃ e, parseChunks cs = .error e := by
  induction cs with
  | nil => simp at h
  | cons c cs ih =>
    rcases hv : validChunk c with _ | _
    · obtain ⟨e, he⟩ := parseChunk_error_of_invalid c hv
      refine ⟨e, ?_⟩
      rw [parseChunks, he]
    · obtain ⟨d, hd, hdv⟩ := h
      rcases List.mem_cons.mp hd with rfl | hd
      · rw [hv] at hdv
        exact absurd hdv (by simp)
      · obtain ⟨e, he⟩ := ih ⟨d, hd, hdv⟩
        rcases hc : parseChunk c with e' | xs
        · refine ⟨e', ?_⟩
          rw [parseChunks, hc]
        · refine ⟨e, ?_⟩
          rw [parseChunks, hc, he]

/-! ## Theorems for claim C3 -/

/-- C3: the page-selection parser returns `.ok none` for an absent or
empty spec; on any spec all of whose comma-separated chunks are valid it
succeeds; and whenever it returns a list, that list is strictly ascending
(hence sorted and duplicate-free) and a nonempty subset of
`[1, total]` — out-of-range numbers having been dropped without error,
with the empty filtered set collapsing to `none` ("all pages"). -/
theorem parse_pages_selection_invariant :
    (∀ total : ℤ, parse_pages none total = .ok none) ∧
    (∀ total : ℤ, parse_pages (some []) total = .ok none) ∧
    (∀ (s : List Char) (total : ℤ),
      (∀ c ∈ splitChar ',' s, validChunk c = true) →
      ∃ r, parse_pages (some s) total = .ok r) ∧
    (∀ (s : List Char) (total : ℤ) (l : List ℤ),
      parse_pages (some s) total = .ok (some l) →
      l.Sorted (· < ·) ∧ l.Nodup ∧ (∀ p ∈ l, 1 ≤ p ∧ p ≤ total) ∧
        l ≠ []) := by
  refine ⟨fun _ => rfl, fun _ => rfl, ?_, ?_⟩
  · intro s total hvalid
    by_cases hs : s = []
    · subst hs
      exact ⟨none, rfl⟩
    · obtain ⟨sel, hsel⟩ := parseChunks_ok_of_valid _ hvalid
      rw [parse_pages, if_neg hs, hsel]
      exact ⟨_, rfl⟩
  · intro s total l h
    by_cases hs : s = []
    · subst hs
      rw [parse_pages] at h
      simp at h
    · rw [parse_pages, if_neg hs] at h
      rcases hsel : parseChunks (splitChar ',' s) with e | sel
      · rw [hsel] at h
        exact absurd h (by simp)
      · rw [hsel] at h
        simp only [Except.ok.injEq] at h
        by_cases hemp :
            sortedUnique
              (sel.filter (fun p => decide (1 ≤ p ∧ p ≤ total))) = []
        · rw [if_pos hemp] at h
          exact absurd h (by simp)
        · rw [if_neg hemp] at h
          have hl : l =
              sortedUnique
                (sel.filter (fun p => decide (1 ≤ p ∧ p ≤ total))) :=
            (Option.some.inj h).symm
          subst hl
          refine ⟨sortedUnique_sorted _, (sortedUnique_sorted _).nodup,
            ?_, hemp⟩
          intro p hp
          have := (sortedUnique_mem _ p).mp hp
          have := List.of_mem_filter this
          exact of_decide_eq_true this

/-- Witness for C3: the invariant theorem applied to the concrete spec
`"1,3-5"` with `total = 10`, discharging the validity and success
hypotheses by evaluation. -/
theorem parse_pages_selection_invariant_witness :
    (∃ r, parse_pages (some "1,3-5".data) 10 = .ok r) ∧
    ([1, 3, 4, 5] : List ℤ).Sorted (· < ·) ∧
    (∀ p ∈ ([1, 3, 4, 5] : List ℤ), 1 ≤ p ∧ p ≤ 10) := by
  have h := parse_pages_selection_invariant
  refine ⟨h.2.2.1 "1,3-5".data 10 (by decide), ?_, ?_⟩
  · exact (h.2.2.2 "1,3-5".data 10 [1, 3, 4, 5] rfl).1
  · exact (h.2.2.2 "1,3-5".data 10 [1, 3, 4, 5] rfl).2.2.1

/-! ## Theorems for claim C6 -/

/-- Counterexample for C6: on spec `"1,3-5"` with a total page count of 3,
the parser does not return `[1]` (it returns `[1, 3]`: the page number 3
from the range `3-5` is within `[1, 3]` and survives the filter). -/
theorem parse_pages_example_total3_ne :
    parse_pages (some "1,3-5".data) 3 ≠ .ok (some [1]) := by
  rw [show parse_pages (some "1,3-5".data) 3 = .ok (some [1, 3]) from rfl]
  simp

/-- C6 amended: spec `"1,3-5"` yields `[1, 3, 4, 5]` for `total = 10` and
`[1, 3]` (not `[1]`) for `total = 3`. -/
theorem parse_pages_examples :
    parse_pages (some "1,3-5".data) 10 = .ok (some [1, 3, 4, 5]) ∧
    parse_pages (some "1,3-5".data) 3 = .ok (some [1, 3]) :=
  ⟨rfl, rfl⟩

/-! ## Theorems for claim C7 -/

/-- Counterexample for C7: the reversed range `"5-3"` does not raise a
parse error — `range(5, 3+1)` is empty, the empty selection collapses to
`None`, and the parser returns success. -/
theorem parse_pages_reversed_range_no_error :
    parse_pages (some "5-3".data) 10 = .ok none := rfl

/-- C7 amended: a spec containing a non-numeric token raises a parse
error that propagates to the caller, but a reversed range `a-b` with
`a > b` denotes the empty range and contributes no pages instead of
raising. -/
theorem parse_pages_malformed :
    (∀ (s : List Char) (total : ℤ), s ≠ [] →
      (∃ c ∈ splitChar ',' s, validChunk c = false) →
      ∃ e, parse_pages (some s) total = .error e) ∧
    (∀ a b : ℤ, b < a → pyRange a b = []) := by
  constructor
  · intro s total hs hinv
    obtain ⟨e, he⟩ := parseChunks_error_of_invalid _ hinv
    refine ⟨e, ?_⟩
    rw [parse_pages, if_neg hs, he]
  · intro a b hab
    rw [pyRange]
    have : (b + 1 - a).toNat = 0 := Int.toNat_of_nonpos (by omega)
    rw [this]
    rfl

/-- Witness for C7 amended: the non-numeric spec `"abc"` raises, and the
reversed range `5-3` is empty. -/
theorem parse_pages_malformed_witness :
    (∃ e, parse_pages (some "abc".data) 10 = .error e) ∧
    pyRange 5 3 = [] := by
  have h := parse_pages_malformed
  exact ⟨h.1 "abc".data 10 (by decide) ⟨"abc".data, by decide⟩,
    h.2 5 3 (by decide)⟩

/-! ## Helper lemmas about `splitChar` and `joinChar` -/

/-- `splitChar` always yields at least one segment. -/
theorem splitChar_ne_nil (sep : Char) (cs : List Char) :
    splitChar sep cs ≠ [] := by
  cases cs with
  | nil => simp [splitChar]
  | cons c cs =>
    rw [splitChar]
    by_cases h : c = sep
    · rw [if_pos h]
      simp
    · rw [if_neg h]
      rcases hs : splitChar sep cs with _ | ⟨l, ls⟩
      · simp
      · simp

/-- Joining the segments of `splitChar` recovers the original list. -/
theorem joinChar_splitChar (sep : Char) (cs : List Char) :
    joinChar sep (splitChar sep cs) = cs := by
  induction cs with
  | nil => rfl
  | cons c cs ih =>
    rw [splitChar]
    by_cases h : c = sep
    · rw [if_pos h]
      rcases hs : splitChar sep cs with _ | ⟨l, ls⟩
      · exact absurd hs (splitChar_ne_nil sep cs)
      · rw [hs] at ih
        subst h
        simp only [joinChar]
        rw [ih]
        rfl
    · rw [if_neg h]
      rcases hs : splitChar sep cs with _ | ⟨l, ls⟩
      · exact absurd hs (splitChar_ne_nil sep cs)
      · rw [hs] at ih
        cases ls with
        | nil =>
          simp only [joinChar] at ih ⊢
          rw [ih]
        | cons l' ls' =>
          simp only [joinChar] at ih ⊢
          rw [List.cons_append, ih]

/-- A list not containing the separator splits into itself alone. -/
theorem splitChar_no_sep (sep : Char) (l : List Char) (h : sep ∉ l) :
    splitChar sep l = [l] := by
  induction l with
  | nil => rfl
  | cons c cs ih =>
    rw [splitChar,
      if_neg (fun hceq => h (List.mem_cons.mpr (Or.inl hceq.symm)))]
    rw [ih (fun hm => h (List.mem_cons_of_mem c hm))]

/-- Splitting a list that starts with a separator-free segment followed by
a separator peels off that segment. -/
theorem splitChar_append (sep : Char) (l rest : List Char) (h : sep ∉ l) :
    splitChar sep (l ++ sep :: rest) = l :: splitChar sep rest := by
  induction l with
  | nil =>
    rw [List.nil_append, splitChar, if_pos rfl]
  | cons c cs ih =>
    rw [List.cons_append, splitChar,
      if_neg (fun hceq => h (List.mem_cons.mpr (Or.inl hceq.symm))),
      ih (fun hm => h (List.mem_cons_of_mem c hm))]

/-- Splitting the join of separator-free segments recovers the
segments. -/
theorem splitChar_joinChar (sep : Char) (lines : List (List Char))
    (h : ∀ l ∈ lines, sep ∉ l) (hne : lines ≠ []) :
    splitChar sep (joinChar sep lines) = lines := by
  induction lines with
  | nil => exact absurd rfl hne
  | cons l ls ih =>
    cases ls with
    | nil =>
      simp only [joinChar]
      exact splitChar_no_sep sep l (h l (List.mem_cons_self l []))
    | cons l' ls' =>
      simp only [joinChar]
      rw [splitChar_append sep l _ (h l (List.mem_cons_self l _)),
        ih (fun d hd => h d (List.mem_cons_of_mem l hd)) (by simp)]

/-- Segments produced by `splitChar` do not contain the separator. -/
theorem mem_splitChar_no_sep (sep : Char) (cs : List Char) :
    ∀ l ∈ splitChar sep cs, sep ∉ l := by
  induction cs with
  | nil =>
    intro l hl
    rw [splitChar, List.mem_singleton] at hl
    subst hl
    simp
  | cons c cs ih =>
    intro l hl
    rw [splitChar] at hl
    by_cases h : c = sep
    · rw [if_pos h, List.mem_cons] at hl
      rcases hl with rfl | hl
      · simp
      · exact ih l hl
    · rw [if_neg h] at hl
      rcases hs : splitChar sep cs with _ | ⟨seg, segs⟩
      · exact absurd hs (splitChar_ne_nil sep cs)
      · rw [hs, List.mem_cons] at hl
        rcases hl with rfl | hl
        · intro hmem
          rcases List.mem_cons.mp hmem with rfl | hmem
          · exact h rfl
          · exact ih seg (hs ▸ List.mem_cons_self seg segs) hmem
        · exact ih l (hs ▸ List.mem_cons_of_mem seg hl)

/-! ## Facts about the concrete header list -/

/-- No recognized header is a proper prefix of another. -/
theorem headersL_prefix_eq :
    ∀ a ∈ headersL, ∀ b ∈ headersL, a <+: b → a = b := by decide

/-- No recognized header is a prefix of a bold replacement line. -/
theorem headersL_not_prefix_decor :
    ∀ a ∈ headersL, ∀ b ∈ headersL, ¬ a <+: decorLine b := by decide

/-- Recognized headers are nonempty and newline-free, and so are their
bold replacement lines. -/
theorem headersL_basic :
    ∀ h ∈ headersL, h ≠ [] ∧ '\n' ∉ h ∧ '\n' ∉ decorLine h := by decide

/-! ## Pass lemmas for `subHeaderLines` -/

/-- A pass leaves a line without the header prefix untouched (as a
member). -/
theorem mem_subHeaderLines_of_no_match (h ln : List Char)
    (lines : List (List Char)) (hmem : ln ∈ lines) (hnp : ¬ h <+: ln) :
    ln ∈ subHeaderLines h lines := by
  rw [subHeaderLines, List.mem_flatMap]
  exact ⟨ln, hmem, by rw [stepHeader, if_neg hnp]; simp⟩

/-- A pass on a line with the header prefix produces the bold line. -/
theorem decor_mem_subHeaderLines (h ln : List Char)
    (lines : List (List Char)) (hmem : ln ∈ lines) (hp : h <+: ln) :
    decorLine h ∈ subHeaderLines h lines := by
  rw [subHeaderLines, List.mem_flatMap]
  exact ⟨ln, hmem, by rw [stepHeader, if_pos hp]; simp⟩

/-- A pass for a header matching no line is the identity. -/
theorem subHeaderLines_id (h : List Char) (lines : List (List Char))
    (hno : ∀ ln ∈ lines, ¬ h <+: ln) : subHeaderLines h lines = lines := by
  induction lines with
  | nil => rfl
  | cons ln rest ih =>
    rw [subHeaderLines, List.flatMap_cons, stepHeader,
      if_neg (hno ln (List.mem_cons_self ln rest))]
    rw [subHeaderLines] at ih
    rw [ih (fun d hd => hno d (List.mem_cons_of_mem ln hd))]
    rfl

/-- The whole six-pass substitution is the identity when no recognized
header is a prefix of any line. -/
theorem formatLines_id (lines : List (List Char))
    (hno : ∀ ln ∈ lines, ∀ h ∈ headersL, ¬ h <+: ln) :
    formatLines lines = lines := by
  rw [formatLines]
  have : ∀ (hs : List (List Char)) (ls : List (List Char)),
      (∀ ln ∈ ls, ∀ h ∈ hs, ¬ h <+: ln) →
      List.foldl (fun ls h => subHeaderLines h ls) ls hs = ls := by
    intro hs
    induction hs with
    | nil => intro ls _; rfl
    | cons h hs ih =>
      intro ls hls
      rw [List.foldl_cons,
        subHeaderLines_id h ls
          (fun ln hln => hls ln hln h (List.mem_cons_self h hs))]
      exact ih ls (fun ln hln d hd => hls ln hln d (List.mem_cons_of_mem h hd))
  exact this headersL lines hno

/-- A line survives every pass whose header does not prefix it; in
particular a member line with no recognized-header prefix survives a fold
over any sublist of headers. -/
theorem mem_foldl_subHeaderLines (hs : List (List Char))
    (lines : List (List Char)) (ln : List Char) (hmem : ln ∈ lines)
    (hnp : ∀ h ∈ hs, ¬ h <+: ln) :
    ln ∈ List.foldl (fun ls h => subHeaderLines h ls) lines hs := by
  induction hs generalizing lines with
  | nil => exact hmem
  | cons h hs ih =>
    rw [List.foldl_cons]
    exact ih _
      (mem_subHeaderLines_of_no_match h ln lines hmem
        (hnp h (List.mem_cons_self h hs)))
      (fun d hd => hnp d (List.mem_cons_of_mem h hd))

/-! ## Theorems for claim C5 -/

/-- Counterexample for C5: in `"Explanation:Intuition: hi"` the header
`"Intuition:"` does not occur at a line start, yet it is rewritten: the
`"Explanation:"` pass inserts a newline before the remainder of the line,
and the later `"Intuition:"` pass then matches at the newly created line
start.  An occurrence not at a line start is therefore not always left
unchanged. -/
theorem format_annotation_headers_cascade :
    format_annotation_headers "Explanation:Intuition: hi".data =
      "**Explanation:**\n**Intuition:**\n hi".data ∧
    format_annotation_headers "Explanation:Intuition: hi".data ≠
      "**Explanation:**\nIntuition: hi".data := by
  constructor
  · decide
  · decide

/-- C5 amended: header formatting rewrites every recognized header that
occurs at a line start of the input to its bold-emphasis form, and is a
no-op on text containing no recognized header at any line start; however,
because each replacement ends with a newline, a recognized header
occurrence that is not at a line start may also be rewritten when an
earlier pass places it at a freshly created line start (see the
counterexample). -/
theorem format_annotation_headers_line_starts :
    (∀ body : List Char,
      (∀ ln ∈ splitChar '\n' body, ∀ h ∈ headersL, ¬ h <+: ln) →
      format_annotation_headers body = body) ∧
    (∀ (body : List Char) (h : List Char), h ∈ headersL →
      (∃ ln ∈ splitChar '\n' body, h <+: ln) →
      decorLine h ∈ formatLines (splitChar '\n' body)) := by
  constructor
  · intro body hno
    rw [format_annotation_headers, formatLines_id _ hno,
      joinChar_splitChar]
  · intro body h hmem hex
    have main : ∀ (hs : List (List Char)) (lines : List (List Char)),
        (∀ d ∈ hs, d ∈ headersL) → h ∈ hs →
        (∃ ln ∈ lines, h <+: ln) →
        decorLine h ∈ List.foldl (fun ls d => subHeaderLines d ls) lines hs := by
      intro hs
      induction hs with
      | nil => intro lines _ hin _; exact absurd hin (by simp)
      | cons d hs ih =>
        intro lines hall hin hex
        obtain ⟨ln, hln, hp⟩ := hex
        rw [List.foldl_cons]
        by_cases hdh : d = h
        · subst hdh
          exact mem_foldl_subHeaderLines hs _ (decorLine d)
            (decor_mem_subHeaderLines d ln lines hln hp)
            (fun d' hd' =>
              headersL_not_prefix_decor d'
                (hall d' (List.mem_cons_of_mem d hd')) d
                (hall d (List.mem_cons_self d hs)))
        · have hin' : h ∈ hs := by
            rcases List.mem_cons.mp hin with rfl | hin'
            · exact absurd rfl hdh
            · exact hin'
          have hnd : ¬ d <+: ln := by
            intro hdp
            rcases List.prefix_or_prefix_of_prefix hdp hp with hdh' | hhd
            · exact hdh
                (headersL_prefix_eq d (hall d (List.mem_cons_self d hs)) h
                  (hall h hin) hdh')
            · exact hdh
                (headersL_prefix_eq h (hall h hin) d
                  (hall d (List.mem_cons_self d hs)) hhd).symm
          exact ih _ (fun d' hd' => hall d' (List.mem_cons_of_mem d hd'))
            hin'
            ⟨ln, mem_subHeaderLines_of_no_match d ln lines hln hnd, hp⟩
    exact main headersL _ (fun d hd => hd) hmem hex

/-- Witness for C5 amended: the no-op part evaluated on a text with no
recognized header at a line start, and the rewrite part evaluated on
`"Explanation: hi"`, whose single line starts with `"Explanation:"`. -/
theorem format_annotation_headers_line_starts_witness :
    format_annotation_headers "just some notes".data =
      "just some notes".data ∧
    decorLine "Explanation:".data ∈
      formatLines (splitChar '\n' "Explanation: hi".data) := by
  have h := format_annotation_headers_line_starts
  refine ⟨h.1 "just some notes".data (by decide), ?_⟩
  exact h.2 "Explanation: hi".data "Explanation:".data (by decide)
    ⟨"Explanation: hi".data, by decide, by decide⟩

/-! ## Invariant lemmas for idempotence (claim C10) -/

/-- No recognized header starts with an asterisk. -/
theorem headersL_head_ne_star :
    ∀ h ∈ headersL, h.head? ≠ some '*' := by decide

/-- Every bold replacement line starts with an asterisk. -/
theorem decorLine_head_star :
    ∀ h ∈ headersL, (decorLine h).head? = some '*' := by decide

/-- A nonempty prefix determines the head of the list. -/
theorem prefix_head_eq (h ln : List Char) (hp : h <+: ln)
    (hne : h ≠ []) : ln.head? = h.head? := by
  obtain ⟨t, rfl⟩ := hp
  cases h with
  | nil => exact absurd rfl hne
  | cons c cs => rfl

/-- One pass preserves the line invariant (every line either has headers
only at its start, or is a bold replacement line starting with `*`) and
establishes that neither the pass header nor any previously processed
header is a prefix of any resulting line. -/
theorem subHeaderLines_inv (d : List Char) (hd : d ∈ headersL)
    (processed : List (List Char)) (hproc : ∀ q ∈ processed, q ∈ headersL)
    (lines : List (List Char))
    (hgs : ∀ ln ∈ lines,
      (∀ h ∈ headersL, ∀ i, 0 < i → ¬ h <+: ln.drop i) ∨
        ln.head? = some '*')
    (hpr : ∀ ln ∈ lines, ∀ q ∈ processed, ¬ q <+: ln) :
    (∀ ln ∈ subHeaderLines d lines,
      (∀ h ∈ headersL, ∀ i, 0 < i → ¬ h <+: ln.drop i) ∨
        ln.head? = some '*') ∧
    (∀ ln ∈ subHeaderLines d lines, ∀ q, (q = d ∨ q ∈ processed) →
      ¬ q <+: ln) := by
  have hdne : d ≠ [] := (headersL_basic d hd).1
  have hdlen : 0 < d.length := List.length_pos.mpr hdne
  constructor
  · intro ln hln
    rw [subHeaderLines, List.mem_flatMap] at hln
    obtain ⟨src, hsrc, hstep⟩ := hln
    rw [stepHeader] at hstep
    by_cases hp : d <+: src
    · rw [if_pos hp] at hstep
      have hsrcGood : ∀ h ∈ headersL, ∀ i, 0 < i → ¬ h <+: src.drop i := by
        rcases hgs src hsrc with hg | hstar
        · exact hg
        · exact absurd (prefix_head_eq d src hp hdne ▸ hstar)
            (headersL_head_ne_star d hd)
      rcases List.mem_cons.mp hstep with rfl | hstep
      · exact Or.inr (decorLine_head_star d hd)
      · rw [List.mem_singleton] at hstep
        subst hstep
        refine Or.inl ?_
        intro h hh i hi
        rw [List.drop_drop]
        exact hsrcGood h hh (d.length + i) (by omega)
    · rw [if_neg hp, List.mem_singleton] at hstep
      subst hstep
      exact hgs _ hsrc
  · intro ln hln q hq
    rw [subHeaderLines, List.mem_flatMap] at hln
    obtain ⟨src, hsrc, hstep⟩ := hln
    have hqmem : q ∈ headersL := by
      rcases hq with rfl | hq
      · exact hd
      · exact hproc q hq
    rw [stepHeader] at hstep
    by_cases hp : d <+: src
    · rw [if_pos hp] at hstep
      have hsrcGood : ∀ h ∈ headersL, ∀ i, 0 < i → ¬ h <+: src.drop i := by
        rcases hgs src hsrc with hg | hstar
        · exact hg
        · exact absurd (prefix_head_eq d src hp hdne ▸ hstar)
            (headersL_head_ne_star d hd)
      rcases List.mem_cons.mp hstep with rfl | hstep
      · exact headersL_not_prefix_decor q hqmem d hd
      · rw [List.mem_singleton] at hstep
        subst hstep
        exact hsrcGood q hqmem d.length hdlen
    · rw [if_neg hp, List.mem_singleton] at hstep
      subst hstep
      rcases hq with rfl | hq
      · exact hp
      · exact hpr _ hsrc q hq

/-- Folding the passes of a header sublist: afterwards no header of the
sublist (nor any previously processed header) is a prefix of any line. -/
theorem foldl_subHeaderLines_inv (hs : List (List Char))
    (hall : ∀ d ∈ hs, d ∈ headersL) :
    ∀ (processed : List (List Char)), (∀ q ∈ processed, q ∈ headersL) →
    ∀ (lines : List (List Char)),
    (∀ ln ∈ lines,
      (∀ h ∈ headersL, ∀ i, 0 < i → ¬ h <+: ln.drop i) ∨
        ln.head? = some '*') →
    (∀ ln ∈ lines, ∀ q ∈ processed, ¬ q <+: ln) →
    ∀ ln ∈ List.foldl (fun ls d => subHeaderLines d ls) lines hs,
      ∀ q, (q ∈ hs ∨ q ∈ processed) → ¬ q <+: ln := by
  induction hs with
  | nil =>
    intro processed hproc lines _ hpr ln hln q hq
    rcases hq with hq | hq
    · exact absurd hq (by simp)
    · exact hpr ln hln q hq
  | cons d hs ih =>
    intro processed hproc lines hgs hpr ln hln q hq
    have hd : d ∈ headersL := hall d (List.mem_cons_self d hs)
    have hstep := subHeaderLines_inv d hd processed hproc lines hgs hpr
    have hproc' : ∀ q ∈ d :: processed, q ∈ headersL := by
      intro q hq
      rcases List.mem_cons.mp hq with rfl | hq
      · exact hd
      · exact hproc q hq
    have hpr' : ∀ ln ∈ subHeaderLines d lines, ∀ q ∈ d :: processed,
        ¬ q <+: ln := by
      intro ln hln q hq
      exact hstep.2 ln hln q (List.mem_cons.mp hq)
    rw [List.foldl_cons] at hln
    have := ih (fun d' hd' => hall d' (List.mem_cons_of_mem d hd'))
      (d :: processed) hproc' (subHeaderLines d lines) hstep.1 hpr' ln hln q
    apply this
    rcases hq with hq | hq
    · rcases List.mem_cons.mp hq with rfl | hq
      · exact Or.inr (List.mem_cons_self q processed)
      · exact Or.inl hq
    · exact Or.inr (List.mem_cons_of_mem d hq)

/-- Passes do not introduce newlines into lines. -/
theorem foldl_subHeaderLines_no_nl (hs : List (List Char))
    (hall : ∀ d ∈ hs, d ∈ headersL) :
    ∀ (lines : List (List Char)), (∀ ln ∈ lines, '\n' ∉ ln) →
    ∀ ln ∈ List.foldl (fun ls d => subHeaderLines d ls) lines hs,
      '\n' ∉ ln := by
  induction hs with
  | nil => intro lines hnl ln hln; exact hnl ln hln
  | cons d hs ih =>
    intro lines hnl ln hln
    rw [List.foldl_cons] at hln
    refine ih (fun d' hd' => hall d' (List.mem_cons_of_mem d hd'))
      (subHeaderLines d lines) ?_ ln hln
    intro ln' hln'
    rw [subHeaderLines, List.mem_flatMap] at hln'
    obtain ⟨src, hsrc, hstep⟩ := hln'
    rw [stepHeader] at hstep
    by_cases hp : d <+: src
    · rw [if_pos hp] at hstep
      rcases List.mem_cons.mp hstep with rfl | hstep
      · exact (headersL_basic d (hall d (List.mem_cons_self d hs))).2.2
      · rw [List.mem_singleton] at hstep
        subst hstep
        exact fun hmem => hnl src hsrc (List.drop_subset _ src hmem)
    · rw [if_neg hp, List.mem_singleton] at hstep
      subst hstep
      exact hnl _ hsrc

/-- Passes never empty the line list. -/
theorem foldl_subHeaderLines_ne_nil (hs : List (List Char)) :
    ∀ (lines : List (List Char)), lines ≠ [] →
    List.foldl (fun ls d => subHeaderLines d ls) lines hs ≠ [] := by
  induction hs with
  | nil => intro lines hne; exact hne
  | cons d hs ih =>
    intro lines hne
    rw [List.foldl_cons]
    apply ih
    cases lines with
    | nil => exact absurd rfl hne
    | cons ln rest =>
      rw [subHeaderLines, List.flatMap_cons, stepHeader]
      by_cases hp : d <+: ln
      · rw [if_pos hp]
        simp
      · rw [if_neg hp]
        simp

/-! ## Theorems for claim C10 -/

/-- Counterexample for C10: header formatting is not idempotent.  In
`"Connections:Title: x"` the `"Connections:"` pass (last in order) leaves
`"Title: x"` at a freshly created line start after all other passes have
already run; a second application then rewrites that `"Title:"`, so
applying the function twice differs from applying it once. -/
theorem format_annotation_headers_not_idem :
    format_annotation_headers
        (format_annotation_headers "Connections:Title: x".data) ≠
      format_annotation_headers "Connections:Title: x".data := by
  decide

/-- C10 amended: header formatting is idempotent on every text in which
recognized headers occur inside lines only as line prefixes (no mid-line
occurrence).  After one application no recognized header remains at any
line start — original line-start headers are rewritten to bold lines
starting with `*`, and newly created lines are either bold lines or
remainders that, by the hypothesis, do not start with a header — so a
second application changes nothing.  Without the hypothesis idempotence
fails (see the counterexample). -/
theorem format_annotation_headers_idem (body : List Char)
    (hgood : ∀ ln ∈ splitChar '\n' body, headerOnlyAtLineStart ln) :
    format_annotation_headers (format_annotation_headers body) =
      format_annotation_headers body := by
  have hGoodAll : ∀ ln ∈ splitChar '\n' body,
      ∀ h ∈ headersL, ∀ i, 0 < i → ¬ h <+: ln.drop i := by
    intro ln hln h hh i hi
    by_cases hlt : i < ln.length
    · exact hgood ln hln i hlt hi h hh
    · rw [List.drop_eq_nil_of_le (by omega)]
      intro hpre
      exact (headersL_basic h hh).1 (List.prefix_nil.mp hpre)
  have hres_free : ∀ ln ∈ formatLines (splitChar '\n' body),
      ∀ h ∈ headersL, ¬ h <+: ln := by
    intro ln hln h hh
    rw [formatLines] at hln
    exact foldl_subHeaderLines_inv headersL (fun d hd => hd) [] (by simp)
      (splitChar '\n' body)
      (fun ln hln => Or.inl (hGoodAll ln hln))
      (by simp) ln hln h (Or.inl hh)
  have hnl : ∀ ln ∈ formatLines (splitChar '\n' body), '\n' ∉ ln := by
    intro ln hln
    rw [formatLines] at hln
    exact foldl_subHeaderLines_no_nl headersL (fun d hd => hd)
      (splitChar '\n' body) (mem_splitChar_no_sep '\n' body) ln hln
  have hne : formatLines (splitChar '\n' body) ≠ [] := by
    rw [formatLines]
    exact foldl_subHeaderLines_ne_nil headersL (splitChar '\n' body)
      (splitChar_ne_nil '\n' body)
  show joinChar '\n'
      (formatLines (splitChar '\n' (joinChar '\n'
        (formatLines (splitChar '\n' body))))) =
    format_annotation_headers body
  rw [splitChar_joinChar '\n' _ hnl hne, formatLines_id _ hres_free]
  rfl

/-- Witness for C10 amended: the generator-shaped text
`"Explanation: uses $x$\nIntuition: core idea"` has headers only at line
starts, and formatting it twice equals formatting it once. -/
theorem format_annotation_headers_idem_witness :
    format_annotation_headers (format_annotation_headers
        "Explanation: uses $x$\nIntuition: core idea".data) =
      format_annotation_headers
        "Explanation: uses $x$\nIntuition: core idea".data :=
  format_annotation_headers_idem
    "Explanation: uses $x$\nIntuition: core idea".data (by decide)

/-! ## Helper lemmas for slug idempotence (claim C9) -/

/-- `Char.toLower` fixes slug characters and the hyphen (their code
points are outside the upper-case latin range 65..90). -/
theorem toLower_fixed (c : Char)
    (h : isSlugChar c = true ∨ c = '-') : c.toLower = c := by
  rcases h with h | rfl
  · simp only [isSlugChar, Bool.or_eq_true, Bool.and_eq_true,
      decide_eq_true_eq] at h
    rw [Char.toLower, if_neg (by omega)]
  · decide

/-- Lower-casing is the identity on lists of slug characters and
hyphens. -/
theorem map_toLower_id (l : List Char)
    (h : ∀ c ∈ l, isSlugChar c = true ∨ c = '-') :
    l.map Char.toLower = l := by
  induction l with
  | nil => rfl
  | cons c cs ih =>
    rw [List.map_cons, toLower_fixed c (h c (List.mem_cons_self c cs)),
      ih (fun d hd => h d (List.mem_cons_of_mem c hd))]

/-- Every character emitted by `collapseRuns` is a slug character or a
hyphen. -/
theorem collapseRuns_chars (cs : List Char) :
    ∀ (b : Bool), ∀ c ∈ collapseRuns b cs,
      isSlugChar c = true ∨ c = '-' := by
  induction cs with
  | nil => intro b c hc; simp [collapseRuns] at hc
  | cons d ds ih =>
    intro b c hc
    rw [collapseRuns] at hc
    by_cases hd : isSlugChar d = true
    · rw [if_pos hd] at hc
      rcases List.mem_cons.mp hc with rfl | hc
      · exact Or.inl hd
      · exact ih false c hc
    · rw [if_neg hd] at hc
      cases b with
      | true =>
        rw [if_pos rfl] at hc
        exact ih true c hc
      | false =>
        rw [if_neg (by simp)] at hc
        rcases List.mem_cons.mp hc with rfl | hc
        · exact Or.inr rfl
        · exact ih true c hc

/-- While inside a run, the next character emitted by `collapseRuns` is a
slug character. -/
theorem collapseRuns_true_head (cs : List Char) :
    ∀ c, (collapseRuns true cs).head? = some c → isSlugChar c = true := by
  induction cs with
  | nil => intro c hc; simp [collapseRuns] at hc
  | cons d ds ih =>
    intro c hc
    rw [collapseRuns] at hc
    by_cases hd : isSlugChar d = true
    · rw [if_pos hd] at hc
      rw [List.head?_cons, Option.some.injEq] at hc
      exact hc ▸ hd
    · rw [if_neg hd, if_pos rfl] at hc
      exact ih c hc

/-- `collapseRuns` never emits two adjacent hyphens. -/
theorem collapseRuns_chain (cs : List Char) :
    ∀ b, List.Chain' (fun a c => ¬ (a = '-' ∧ c = '-'))
      (collapseRuns b cs) := by
  induction cs with
  | nil => intro b; simp [collapseRuns]
  | cons d ds ih =>
    intro b
    rw [collapseRuns]
    by_cases hd : isSlugChar d = true
    · rw [if_pos hd, List.chain'_cons']
      refine ⟨?_, ih false⟩
      intro y _ hcon
      rcases hcon with ⟨rfl, _⟩
      exact absurd hd (by decide)
    · rw [if_neg hd]
      cases b with
      | true =>
        rw [if_pos rfl]
        exact ih true
      | false =>
        rw [if_neg (by simp), List.chain'_cons']
        refine ⟨?_, ih true⟩
        intro y hy hcon
        have := collapseRuns_true_head ds y hy
        rcases hcon with ⟨_, rfl⟩
        exact absurd this (by decide)

/-- On a hyphen-collapsed, hyphen-trimmed-at-the-end slug string,
`collapseRuns` is the identity (and also from the in-run state when the
string does not start with a hyphen). -/
theorem collapseRuns_id (cs : List Char)
    (hchars : ∀ c ∈ cs, isSlugChar c = true ∨ c = '-')
    (hchain : List.Chain' (fun a c => ¬ (a = '-' ∧ c = '-')) cs)
    (hlast : cs.getLast? ≠ some '-') :
    collapseRuns false cs = cs ∧
      (cs.head? ≠ some '-' → collapseRuns true cs = cs) := by
  induction cs with
  | nil => exact ⟨rfl, fun _ => rfl⟩
  | cons d ds ih =>
    have hchain' := (List.chain'_cons'.mp hchain).2
    have hfirst := (List.chain'_cons'.mp hchain).1
    have hchars' : ∀ c ∈ ds, isSlugChar c = true ∨ c = '-' :=
      fun c hc => hchars c (List.mem_cons_of_mem d hc)
    by_cases hd : isSlugChar d = true
    · have hlast' : ds.getLast? ≠ some '-' := by
        cases ds with
        | nil => simp
        | cons e es =>
          rw [List.getLast?_cons_cons] at hlast
          exact hlast
      have := ih hchars' hchain' hlast'
      constructor
      · rw [collapseRuns, if_pos hd, this.1]
      · intro _
        rw [collapseRuns, if_pos hd, this.1]
    · have hdd : d = '-' := by
        rcases hchars d (List.mem_cons_self d ds) with h | h
        · exact absurd h hd
        · exact h
      subst hdd
      cases ds with
      | nil => exact absurd hlast (by simp)
      | cons e es =>
        have hlast' : (e :: es).getLast? ≠ some '-' := by
          rw [List.getLast?_cons_cons] at hlast
          exact hlast
        have hhead' : (e :: es).head? ≠ some '-' := by
          rw [List.head?_cons]
          intro hcon
          exact hfirst e rfl ⟨rfl, Option.some.inj hcon⟩
        have := ih hchars' hchain' hlast'
        constructor
        · rw [collapseRuns, if_neg hd, if_neg (by simp), this.2 hhead']
        · intro hcon
          exact absurd List.head?_cons hcon

/-- The head of a `dropWhile` result does not satisfy the predicate. -/
theorem head?_dropWhile_false {α : Type} (p : α → Bool) (l : List α)
    (c : α) (h : (l.dropWhile p).head? = some c) : p c = false := by
  induction l with
  | nil => simp [List.dropWhile] at h
  | cons d ds ih =>
    rw [List.dropWhile] at h
    by_cases hd : p d = true
    · rw [hd] at h
      exact ih h
    · rw [Bool.not_eq_true] at hd
      rw [hd] at h
      simp only [List.head?_cons, Option.some.injEq] at h
      exact h ▸ hd

/-- `dropWhile` keeps the last element of a list when its result is
nonempty. -/
theorem getLast?_dropWhile {α : Type} (p : α → Bool) (l : List α)
    (h : l.dropWhile p ≠ []) : (l.dropWhile p).getLast? = l.getLast? := by
  induction l with
  | nil => simp [List.dropWhile] at h
  | cons d ds ih =>
    rw [List.dropWhile] at h ⊢
    by_cases hd : p d = true
    · rw [hd] at h ⊢
      rw [ih h]
      cases ds with
      | nil => rw [List.dropWhile] at h; exact absurd rfl h
      | cons e es => rw [List.getLast?_cons_cons]
    · rw [Bool.not_eq_true] at hd
      rw [hd]

/-- `dropWhile` is the identity when the head does not satisfy the
predicate. -/
theorem dropWhile_id_of_head {α : Type} (p : α → Bool) (l : List α)
    (h : ∀ c, l.head? = some c → p c = false) : l.dropWhile p = l := by
  cases l with
  | nil => rfl
  | cons d ds =>
    rw [List.dropWhile, h d rfl]

/-- Characters of `stripDashes l` come from `l`. -/
theorem stripDashes_subset (l : List Char) :
    ∀ c ∈ stripDashes l, c ∈ l := by
  intro c hc
  rw [stripDashes, List.mem_reverse] at hc
  have hc2 := (List.dropWhile_suffix (fun c => c = '-')).subset hc
  rw [List.mem_reverse] at hc2
  exact (List.dropWhile_suffix (fun c => c = '-')).subset hc2

/-- `stripDashes` preserves the no-adjacent-hyphen chain. -/
theorem stripDashes_chain (l : List Char)
    (h : List.Chain' (fun a c => ¬ (a = '-' ∧ c = '-')) l) :
    List.Chain' (fun a c => ¬ (a = '-' ∧ c = '-')) (stripDashes l) := by
  rw [stripDashes]
  have h1 : List.Chain' (fun a c => ¬ (a = '-' ∧ c = '-'))
      (l.dropWhile (fun c => c = '-')) :=
    h.suffix (List.dropWhile_suffix _)
  have h2 : List.Chain' (fun a c => ¬ (a = '-' ∧ c = '-'))
      ((l.dropWhile (fun c => c = '-')).reverse) := by
    rw [List.chain'_reverse]
    exact h1.imp (fun a c hac hcon => hac ⟨hcon.2, hcon.1⟩)
  have h3 := h2.suffix (List.dropWhile_suffix (fun c => c = '-'))
  rw [List.chain'_reverse]
  exact h3.imp (fun a c hac hcon => hac ⟨hcon.2, hcon.1⟩)

/-- The first character of `stripDashes l` is not a hyphen. -/
theorem stripDashes_head (l : List Char) :
    (stripDashes l).head? ≠ some '-' := by
  intro hcon
  rw [stripDashes, List.head?_reverse] at hcon
  have hne : (l.dropWhile (fun c => c = '-')).reverse.dropWhile
      (fun c => c = '-') ≠ [] := by
    intro hnil
    rw [hnil] at hcon
    simp at hcon
  rw [getLast?_dropWhile _ _ hne, List.getLast?_reverse] at hcon
  have := head?_dropWhile_false (fun c => c = '-') l '-' hcon
  simp at this

/-- The last character of `stripDashes l` is not a hyphen. -/
theorem stripDashes_last (l : List Char) :
    (stripDashes l).getLast? ≠ some '-' := by
  intro hcon
  rw [stripDashes, List.getLast?_reverse] at hcon
  have := head?_dropWhile_false (fun c => c = '-') _ '-' hcon
  simp at this

/-- `stripDashes` is the identity when neither end is a hyphen. -/
theorem stripDashes_id (l : List Char) (hhead : l.head? ≠ some '-')
    (hlast : l.getLast? ≠ some '-') : stripDashes l = l := by
  rw [stripDashes]
  rw [dropWhile_id_of_head (fun c => c = '-') l
      (fun c hc => by
        rw [hc] at hhead
        simp only [decide_eq_false_iff_not]
        intro hcc
        exact hhead (by rw [hcc]))]
  rw [dropWhile_id_of_head (fun c => c = '-') l.reverse
      (fun c hc => by
        rw [List.head?_reverse] at hc
        rw [hc] at hlast
        simp only [decide_eq_false_iff_not]
        intro hcc
        exact hlast (by rw [hcc]))]
  exact List.reverse_reverse l

/-! ## Theorems for claim C9 -/

/-- C9: slug derivation — lower-case, collapse every run of characters
outside `[a-z0-9]` to a single hyphen, strip leading and trailing
hyphens — is idempotent: slugifying an already-slugified string returns
it unchanged; and `"Reinforcement Learning!"` slugifies to
`"reinforcement-learning"`. -/
theorem _slug_idempotent :
    (∀ s : List Char, _slug (_slug s) = _slug s) ∧
    _slug "Reinforcement Learning!".data = "reinforcement-learning".data := by
  constructor
  · intro s
    have hchars : ∀ c ∈ _slug s, isSlugChar c = true ∨ c = '-' := by
      intro c hc
      rw [_slug] at hc
      exact collapseRuns_chars _ false c (stripDashes_subset _ c hc)
    have hchain : List.Chain' (fun a c => ¬ (a = '-' ∧ c = '-'))
        (_slug s) := by
      rw [_slug]
      exact stripDashes_chain _ (collapseRuns_chain _ false)
    have hhead : (_slug s).head? ≠ some '-' := by
      rw [_slug]
      exact stripDashes_head _
    have hlast : (_slug s).getLast? ≠ some '-' := by
      rw [_slug]
      exact stripDashes_last _
    show stripDashes (collapseRuns false ((_slug s).map Char.toLower)) =
      _slug s
    rw [map_toLower_id _ hchars,
      (collapseRuns_id (_slug s) hchars hchain hlast).1,
      stripDashes_id _ hhead hlast]
  · decide

/-! ## Theorems for claim C2 -/

/-- C2: for every cache key state, (i) when the record exists and `force`
is false, the step returns the stored annotation text byte-identically,
leaves the record unchanged and does not invoke the generator; (ii) when
the record is missing or `force` is true, the generator is invoked and
the post-processed text is persisted (overwriting any prior record)
before the renderer runs (the event order is generate, write, render);
(iii) in every case the renderer is invoked, on exactly the
(possibly cached) annotation text of this step. -/
theorem annotate_pdf_cache_step {β : Type} (cached : Option (List Char))
    (t : List Char) (force : Bool) (genOut : List Char)
    (render : List Char → β) :
    (force = false → cached = some t →
      (pageStep cached force genOut render).noteMd = t ∧
      (pageStep cached force genOut render).mdStore = some t ∧
      (pageStep cached force genOut render).events =
        [CacheEv.renderCall] ∧
      CacheEv.genCall ∉ (pageStep cached force genOut render).events) ∧
    (force = true ∨ cached = none →
      (pageStep cached force genOut render).noteMd = postProcess genOut ∧
      (pageStep cached force genOut render).mdStore =
        some (postProcess genOut) ∧
      (pageStep cached force genOut render).events =
        [CacheEv.genCall, CacheEv.cacheWrite, CacheEv.renderCall]) ∧
    CacheEv.renderCall ∈ (pageStep cached force genOut render).events ∧
    (pageStep cached force genOut render).fragment =
      render (pageStep cached force genOut render).noteMd := by
  cases force with
  | false =>
    cases cached with
    | none =>
      refine ⟨fun _ h => by simp at h, fun _ => ⟨rfl, rfl, rfl⟩, ?_, rfl⟩
      simp [pageStep]
    | some u =>
      refine ⟨fun _ h => ?_, fun h => ?_, ?_, rfl⟩
      · obtain rfl : u = t := Option.some.inj h
        exact ⟨rfl, rfl, rfl, by simp [pageStep]⟩
      · rcases h with h | h
        · exact absurd h (by simp)
        · exact absurd h (by simp)
      · simp [pageStep]
  | true =>
    cases cached with
    | none =>
      refine ⟨fun h _ => by simp at h, fun _ => ⟨rfl, rfl, rfl⟩, ?_, rfl⟩
      simp [pageStep]
    | some u =>
      refine ⟨fun h _ => by simp at h, fun _ => ⟨rfl, rfl, rfl⟩, ?_, rfl⟩
      simp [pageStep]

/-- Witness for C2: a cache hit returns the stored text without a
generator call, and a cache miss generates, writes, then renders. -/
theorem annotate_pdf_cache_step_witness :
    (pageStep (some "stored note".data) false "gen".data
        List.length).noteMd = "stored note".data ∧
    CacheEv.genCall ∉ (pageStep (some "stored note".data) false
        "gen".data List.length).events ∧
    (pageStep (none : Option (List Char)) false "gen".data
        List.length).events =
      [CacheEv.genCall, CacheEv.cacheWrite, CacheEv.renderCall] := by
  have hit := annotate_pdf_cache_step (some "stored note".data)
    "stored note".data false "gen".data List.length
  have miss := annotate_pdf_cache_step (none : Option (List Char))
    "stored note".data false "gen".data List.length
  exact ⟨(hit.1 rfl rfl).1, (hit.1 rfl rfl).2.2.2,
    (miss.2.1 (Or.inr rfl)).2.2⟩

/-! ## Helper lemmas for the retry policy (claim C4) -/

/-- With at least two attempts remaining, a failing attempt is
retried. -/
theorem retryRun_error_step {ε α : Type} (f : ℕ → Except ε α) (i n : ℕ)
    (e : ε) (h : f i = .error e) :
    retryRun f i (n + 2) = retryRun f (i + 1) (n + 1) := by
  simp only [retryRun, h]

/-- With at least two attempts remaining, a successful attempt returns
immediately. -/
theorem retryRun_ok_step {ε α : Type} (f : ℕ → Except ε α) (i n : ℕ)
    (v : α) (h : f i = .ok v) : retryRun f i (n + 2) = .ok v := by
  simp only [retryRun, h]

/-- If the first `n` attempts fail and attempt `n` succeeds, the retry
loop returns the success. -/
theorem retryRun_ok_of_eventual {ε α : Type} (f : ℕ → Except ε α) :
    ∀ (n i : ℕ) (v : α), (∀ k < n, ∃ e, f (i + k) = .error e) →
    f (i + n) = .ok v → retryRun f i (n + 1) = .ok v := by
  intro n
  induction n with
  | zero => intro i v _ hok; simpa using hok
  | succ n ih =>
    intro i v hfail hok
    obtain ⟨e, he⟩ := hfail 0 (by omega)
    rw [show i + 0 = i from rfl] at he
    rw [show n + 1 + 1 = n + 2 from rfl, retryRun_error_step f i n e he]
    refine ih (i + 1) v ?_ ?_
    · intro k hk
      obtain ⟨e', he'⟩ := hfail (k + 1) (by omega)
      exact ⟨e', by rw [show i + 1 + k = i + (k + 1) by omega]; exact he'⟩
    · rw [show i + 1 + n = i + (n + 1) by omega]
      exact hok

/-- If every attempt fails, the retry loop propagates the error of the
last attempt. -/
theorem retryRun_error_of_allFail {ε α : Type} (f : ℕ → Except ε α) :
    ∀ (n i : ℕ) (e : ℕ → ε), (∀ k ≤ n, f (i + k) = .error (e k)) →
    retryRun f i (n + 1) = .error (e n) := by
  intro n
  induction n with
  | zero =>
    intro i e hfail
    have := hfail 0 (by omega)
    simpa using this
  | succ n ih =>
    intro i e hfail
    rw [show n + 1 + 1 = n + 2 from rfl,
      retryRun_error_step f i n (e 0) (by simpa using hfail 0 (by omega))]
    have := ih (i + 1) (fun k => e (k + 1)) (fun k hk => by
      rw [show i + 1 + k = i + (k + 1) by omega]
      exact hfail (k + 1) (by omega))
    exact this

/-- The retry loop depends only on the outcomes of the attempts it may
make. -/
theorem retryRun_congr {ε α : Type} (f g : ℕ → Except ε α) :
    ∀ (n i : ℕ), (∀ k < n + 1, f (i + k) = g (i + k)) →
    retryRun f i (n + 1) = retryRun g i (n + 1) := by
  intro n
  induction n with
  | zero =>
    intro i hagree
    show f i = g i
    simpa using hagree 0 (by omega)
  | succ n ih =>
    intro i hagree
    have h0 : f i = g i := by simpa using hagree 0 (by omega)
    show retryRun f i (n + 2) = retryRun g i (n + 2)
    rcases hf : f i with e | v
    · rw [retryRun_error_step f i n e hf,
        retryRun_error_step g i n e (h0 ▸ hf)]
      refine ih (i + 1) ?_
      intro k hk
      rw [show i + 1 + k = i + (k + 1) by omega]
      exact hagree (k + 1) (by omega)
    · rw [retryRun_ok_step f i n v hf,
        retryRun_ok_step g i n v (h0 ▸ hf)]

/-- The sequential page loop: pages before the failing one succeed, and
the first failure aborts the run with that error, whatever pages follow
(they are never attempted). -/
theorem processPages_abort {ε α : Type} (step : ℕ → Except ε α) :
    ∀ (pre : List ℕ) (k : ℕ) (post : List ℕ) (e : ε),
    (∀ p ∈ pre, ∃ a, step p = .ok a) → step k = .error e →
    processPages step (pre ++ k :: post) = .error e := by
  intro pre
  induction pre with
  | nil =>
    intro k post e _ hk
    rw [List.nil_append, processPages, hk]
  | cons p ps ih =>
    intro k post e hok hk
    obtain ⟨a, ha⟩ := hok p (List.mem_cons_self p ps)
    rw [List.cons_append, processPages, ha,
      ih k post e (fun q hq => hok q (List.mem_cons_of_mem p hq)) hk]

/-! ## Theorems for claim C4 -/

/-- C4: the text-generation call is retried on any failed attempt with at
most 5 attempts in total (the result depends only on the outcomes of
attempts 0..4): a call failing on attempts 0..3 and succeeding on
attempt 4 returns the success with no error; a call failing on all 5
attempts propagates the last failure; the sequential page loop aborts
with that error at the first failing page, whatever pages follow; and the
wait between attempts follows exponential backoff with jitter — the first
wait lies in `[1, 2]` seconds and every wait is capped at 20 seconds. -/
theorem call_gpt5_retry_semantics :
    (∀ (ε α : Type) (f : ℕ → Except ε α) (v : α),
      (∀ i < 4, ∃ e, f i = .error e) → f 4 = .ok v →
      call_gpt5 f = .ok v) ∧
    (∀ (ε α : Type) (f : ℕ → Except ε α) (e : ℕ → ε),
      (∀ i < 5, f i = .error (e i)) → call_gpt5 f = .error (e 4)) ∧
    (∀ (ε α : Type) (f g : ℕ → Except ε α),
      (∀ i < 5, f i = g i) → call_gpt5 f = call_gpt5 g) ∧
    (∀ (ε α : Type) (step : ℕ → Except ε α) (pre : List ℕ) (k : ℕ)
      (post : List ℕ) (e : ε),
      (∀ p ∈ pre, ∃ a, step p = .ok a) → step k = .error e →
      processPages step (pre ++ k :: post) = .error e) ∧
    (∀ j : ℚ, 0 ≤ j → j ≤ 1 →
      1 ≤ waitExpJitter 0 j ∧ waitExpJitter 0 j ≤ 2) ∧
    (∀ (n : ℕ) (j : ℚ), 0 ≤ j → waitExpJitter n j ≤ 20) := by
  refine ⟨?_, ?_, ?_, ?_, ?_, ?_⟩
  · intro ε α f v hfail hok
    exact retryRun_ok_of_eventual f 4 0 v
      (fun k hk => by simpa using hfail k hk) (by simpa using hok)
  · intro ε α f e hfail
    exact retryRun_error_of_allFail f 4 0 e
      (fun k hk => by simpa using hfail k (by omega))
  · intro ε α f g hagree
    exact retryRun_congr f g 4 0 (fun k hk => by simpa using hagree k hk)
  · intro ε α step pre k post e hok hk
    exact processPages_abort step pre k post e hok hk
  · intro j hj0 hj1
    constructor
    · rw [waitExpJitter]
      have h1 : (1 : ℚ) * 2 ^ (0 : ℕ) + j = 1 + j := by ring
      rw [h1, min_eq_left (by linarith)]
      have : (0 : ℚ) ≤ 1 + j := by linarith
      rw [max_eq_right this]
      linarith
    · rw [waitExpJitter]
      have h1 : (1 : ℚ) * 2 ^ (0 : ℕ) + j = 1 + j := by ring
      rw [h1, min_eq_left (by linarith)]
      have : (0 : ℚ) ≤ 1 + j := by linarith
      rw [max_eq_right this]
      linarith
  · intro n j _
    rw [waitExpJitter]
    exact max_le (by norm_num) (min_le_right _ _)

/-- Witness for C4: an oracle failing on attempts 0..3 and succeeding on
attempt 4 yields the success; an oracle failing on every attempt yields
the error of attempt 4; a run whose second page fails aborts with that
error; a jitter of one half gives a first wait of three halves. -/
theorem call_gpt5_retry_semantics_witness :
    call_gpt5 (fun i =>
        if i < 4 then (.error 0 : Except ℕ ℕ) else .ok 7) = .ok 7 ∧
    call_gpt5 (fun i => (.error i : Except ℕ ℕ)) = .error 4 ∧
    processPages (fun p =>
        if p = 2 then (.error 9 : Except ℕ ℕ) else .ok p)
      [1, 2, 3] = .error 9 ∧
    1 ≤ waitExpJitter 0 (1 / 2) ∧ waitExpJitter 0 (1 / 2) ≤ 2 := by
  have h := call_gpt5_retry_semantics
  refine ⟨?_, ?_, ?_, ?_, ?_⟩
  · exact h.1 ℕ ℕ _ 7
      (fun i hi => ⟨0, by rw [if_pos hi]⟩)
      (by norm_num)
  · exact h.2.1 ℕ ℕ _ (fun i => i) (fun i _ => rfl)
  · exact h.2.2.2.1 ℕ ℕ _ [1] 2 [3] 9
      (fun p hp => ⟨1, by
        rcases List.mem_singleton.mp hp with rfl
        norm_num⟩)
      (by norm_num)
  · exact (h.2.2.2.2.1 (1 / 2) (by norm_num) (by norm_num)).1
  · exact (h.2.2.2.2.1 (1 / 2) (by norm_num) (by norm_num)).2

/-! ## Theorems for claim C8 -/

/-- `Rat.floor` agrees with the floor of ℚ as a `FloorRing`. -/
theorem ratFloor_eq_intFloor (q : ℚ) : q.floor = ⌊q⌋ :=
  le_antisymm (Int.le_floor.mpr (Rat.le_floor.mp (le_refl q.floor)))
    (Rat.le_floor.mpr (Int.floor_le q))

/-- Floor of the example width `100.7`. -/
theorem floor_1007_div_10 : ⌊(1007 / 10 : ℚ)⌋ = 100 := by
  rw [show (1007 : ℚ) / 10 = ((1007 : ℤ) : ℚ) / ((10 : ℕ) : ℚ) by
    norm_num]
  rw [Rat.floor_intCast_div_natCast]
  decide

/-- Counterexample for C8: a notes rectangle of width `100.7` page units
is communicated to the renderer as `100`, not `101` — Python `int(...)`
truncates toward zero instead of rounding. -/
theorem render_md_to_pdf_env_not_rounded :
    (render_md_to_pdf_env ⟨0, 0, 1007 / 10, 50⟩).1 = 100 ∧
    (render_md_to_pdf_env ⟨0, 0, 1007 / 10, 50⟩).1 ≠ 101 := by
  have hw : Rect.width ⟨0, 0, 1007 / 10, 50⟩ = 1007 / 10 := by
    norm_num [Rect.width]
  have h100 : (render_md_to_pdf_env ⟨0, 0, 1007 / 10, 50⟩).1 = 100 := by
    show pyIntTrunc (Rect.width ⟨0, 0, 1007 / 10, 50⟩) = 100
    rw [hw, pyIntTrunc, if_pos (by norm_num), ratFloor_eq_intFloor,
      floor_1007_div_10]
  exact ⟨h100, by rw [h100]; decide⟩

/-- C8 amended: for every notes rectangle with nonnegative width and
height, the two sizing parameters passed to the renderer through its
environment are the width and height truncated toward zero — the
greatest integers not exceeding them — so a fractional width of `100.7`
page units is communicated as `100`. -/
theorem render_md_to_pdf_env_truncates (r : Rect) (hw : 0 ≤ r.width)
    (hh : 0 ≤ r.height) :
    render_md_to_pdf_env r = (⌊r.width⌋, ⌊r.height⌋) ∧
    ((⌊r.width⌋ : ℚ) ≤ r.width ∧ r.width < ⌊r.width⌋ + 1) ∧
    ((⌊r.height⌋ : ℚ) ≤ r.height ∧ r.height < ⌊r.height⌋ + 1) := by
  refine ⟨?_, ⟨Int.floor_le _, ?_⟩, ⟨Int.floor_le _, ?_⟩⟩
  · rw [render_md_to_pdf_env, pyIntTrunc, pyIntTrunc, if_pos hw,
      if_pos hh, ratFloor_eq_intFloor, ratFloor_eq_intFloor]
  · have := Int.lt_floor_add_one r.width
    exact_mod_cast this
  · have := Int.lt_floor_add_one r.height
    exact_mod_cast this

/-- Witness for C8 amended: the truncation theorem applied to the
rectangle of width `100.7` and height `50`. -/
theorem render_md_to_pdf_env_truncates_witness :
    render_md_to_pdf_env ⟨0, 0, 1007 / 10, 50⟩ = (100, 50) := by
  have h := render_md_to_pdf_env_truncates ⟨0, 0, 1007 / 10, 50⟩
    (by norm_num [Rect.width]) (by norm_num [Rect.height])
  rw [h.1]
  have hw : Rect.width ⟨0, 0, 1007 / 10, 50⟩ = 1007 / 10 := by
    norm_num [Rect.width]
  have hh : Rect.height ⟨0, 0, 1007 / 10, 50⟩ = 50 := by
    norm_num [Rect.height]
  rw [hw, hh, floor_1007_div_10]
  norm_num

/-- Witness for C9: idempotence evaluated at the concrete course name
`"Reinforcement Learning!"`. -/
theorem _slug_idempotent_witness :
    _slug (_slug "Reinforcement Learning!".data) =
      _slug "Reinforcement Learning!".data :=
  _slug_idempotent.1 "Reinforcement Learning!".data
